import Mathlib

/-!
Verification development for the Shark-Core symbolic-regression engine.

The engine lives in two near-duplicate Rust variants:
- `crates/predict/src/bin/e11_1_benchmark.rs` (namespace `E11` below), and
- `crates/predict/src/scientist.rs` (namespace `Sci` below).

Modelling conventions:
- Rust `f64` is idealised as the type `F64` below: an exact real for every
  finite value plus the three special values `inf`, `ninf` and `nan`.
  Rounding and overflow of finite arithmetic are not modelled; the
  NaN/infinity propagation rules of IEEE 754 operations are.
- The ChaCha8 random generator comes from the external `rand_chacha` crate
  (not part of this repository); it is modelled as an oracle `Rng` that
  supplies an arbitrary stream of draw results, advanced one position per
  draw, exactly in the source's draw order.
- `rayon` parallel iteration over the population is modelled as the
  equivalent sequential left-to-right fold; the spec itself only requires
  order-independent budget accounting, which the sequential model captures.
- Rust `while` loops are modelled with an explicit fuel parameter; the
  termination theorems show the chosen fuel is enough for the loop to halt
  on its own condition, so the fuelled model coincides with the source loop.
-/

/-- Idealised IEEE 754 double: exact finite reals plus the special values. -/
inductive F64 where
  | fin (v : ℝ)
  | inf
  | ninf
  | nan
namespace F64

/-- Rust `f64::is_finite`. -/
def isFinite : F64 → Bool
  | fin _ => true
  | _ => false

/-- Rust `f64::is_nan`. -/
def isNan : F64 → Bool
  | nan => true
  | _ => false

/-- IEEE addition on the idealised doubles. -/
noncomputable def add : F64 → F64 → F64
  | fin a, fin b => fin (a + b)
  | fin _, inf => inf
  | fin _, ninf => ninf
  | inf, fin _ => inf
  | ninf, fin _ => ninf
  | inf, inf => inf
  | inf, ninf => nan
  | ninf, inf => nan
  | ninf, ninf => ninf
  | nan, _ => nan
  | _, nan => nan

/-- IEEE subtraction on the idealised doubles. -/
noncomputable def sub : F64 → F64 → F64
  | fin a, fin b => fin (a - b)
  | fin _, inf => ninf
  | fin _, ninf => inf
  | inf, fin _ => inf
  | ninf, fin _ => ninf
  | inf, inf => nan
  | inf, ninf => inf
  | ninf, inf => ninf
  | ninf, ninf => nan
  | nan, _ => nan
  | _, nan => nan

/-- IEEE multiplication on the idealised doubles. -/
noncomputable def mul : F64 → F64 → F64
  | fin a, fin b => fin (a * b)
  | fin a, inf => if 0 < a then inf else if a < 0 then ninf else nan
  | fin a, ninf => if 0 < a then ninf else if a < 0 then inf else nan
  | inf, fin b => if 0 < b then inf else if b < 0 then ninf else nan
  | ninf, fin b => if 0 < b then ninf else if b < 0 then inf else nan
  | inf, inf => inf
  | inf, ninf => ninf
  | ninf, inf => ninf
  | ninf, ninf => inf
  | nan, _ => nan
  | _, nan => nan

/-- IEEE division on the idealised doubles (signed zero is not modelled;
division of a nonzero finite value by zero picks the sign of the numerator). -/
noncomputable def div : F64 → F64 → F64
  | fin a, fin b =>
      if b = 0 then (if a = 0 then nan else if 0 < a then inf else ninf)
      else fin (a / b)
  | fin _, inf => fin 0
  | fin _, ninf => fin 0
  | inf, fin b => if 0 ≤ b then inf else ninf
  | ninf, fin b => if 0 ≤ b then ninf else inf
  | inf, inf => nan
  | inf, ninf => nan
  | ninf, inf => nan
  | ninf, ninf => nan
  | nan, _ => nan
  | _, nan => nan

/-- Rust `f64::sin`. -/
noncomputable def sin : F64 → F64
  | fin a => fin (Real.sin a)
  | _ => nan

/-- Rust `f64::cos`. -/
noncomputable def cos : F64 → F64
  | fin a => fin (Real.cos a)
  | _ => nan

/-- Rust `f64::exp`. -/
noncomputable def exp : F64 → F64
  | fin a => fin (Real.exp a)
  | inf => inf
  | ninf => fin 0
  | nan => nan

/-- The IEEE strict order used by Rust `<` on `f64`: `nan` compares false
with everything, including itself. -/
def lt : F64 → F64 → Prop
  | fin a, fin b => a < b
  | fin _, inf => True
  | ninf, fin _ => True
  | ninf, inf => True
  | _, _ => False

noncomputable instance : ∀ x y : F64, Decidable (lt x y)
  | fin a, fin b => inferInstanceAs (Decidable (a < b))
  | fin _, inf => .isTrue trivial
  | fin _, ninf => .isFalse (fun h => h)
  | fin _, nan => .isFalse (fun h => h)
  | inf, _ => .isFalse (by cases ‹F64› <;> exact fun h => h)
  | ninf, fin _ => .isTrue trivial
  | ninf, inf => .isTrue trivial
  | ninf, ninf => .isFalse (fun h => h)
  | ninf, nan => .isFalse (fun h => h)
  | nan, _ => .isFalse (by cases ‹F64› <;> exact fun h => h)

/-- Non-strict comparison used only in statements: the IEEE strict order or
exact equality of the stored value. -/
def le (x y : F64) : Prop := lt x y ∨ x = y
end F64

/-- Rust `f64::trunc`: round toward zero. -/
noncomputable def rustTrunc (p : ℝ) : ℝ :=
  if 0 ≤ p then (⌊p⌋ : ℝ) else (⌈p⌉ : ℝ)

/-- Rust `f64::fract`: `self - self.trunc()`. -/
noncomputable def rustFract (p : ℝ) : ℝ := p - rustTrunc p

/-- Rust `f64::powf` on a finite base, following IEEE `pow`: positive bases
use the real power function, `0^p` is `1`, `0` or `+inf` according to the
sign of `p`, and a negative base yields a real only for integer exponents
(sign given by the parity of the exponent), otherwise NaN. -/
noncomputable def rustPowf (b p : ℝ) : F64 :=
  if 0 < b then .fin (b ^ p)
  else if b = 0 then (if p < 0 then .inf else .fin ((0 : ℝ) ^ p))
  else if rustFract p = 0 then
    .fin ((if ⌊p⌋ % 2 = 0 then (1 : ℝ) else -1) * |b| ^ p)
  else .nan

/-- Oracle model of the external `ChaCha8Rng`: streams of draw results,
one shared position advanced per draw, in the source's draw order. -/
structure Rng where
  nats : ℕ → ℕ
  reals : ℕ → ℝ
  bools : ℕ → Bool
  pos : ℕ
namespace Rng

/-- Advance the oracle by one consumed draw. -/
def bump (r : Rng) : Rng := { r with pos := r.pos + 1 }

/-- Rust `rng.gen_range(lo..hi)` on integers: the oracle value reduced into
the requested range. -/
def genRangeNat (r : Rng) (lo hi : ℕ) : ℕ × Rng :=
  (lo + r.nats r.pos % (hi - lo), r.bump)

/-- Rust `rng.gen_range(lo..hi)` on `f64`: an arbitrary oracle draw
(the drawn value itself is irrelevant to every claim proved below). -/
def genRangeReal (r : Rng) (_lo _hi : ℝ) : ℝ × Rng :=
  (r.reals r.pos, r.bump)

/-- Rust `rng.gen_bool(p)`: an arbitrary oracle coin. -/
def genBool (r : Rng) (_p : ℝ) : Bool × Rng :=
  (r.bools r.pos, r.bump)
end Rng
namespace E11

/-- Expression trees of `e11_1_benchmark.rs` (`enum Expr`). -/
inductive Expr where
  | Const (c : ℝ)
  | X
  | Add (a b : Expr)
  | Mul (a b : Expr)
  | Sin (a : Expr)
  | Cos (a : Expr)
  | Exp (a : Expr)
  | Pow (a : Expr) (p : ℝ)
  | Scale (a : Expr) (k : ℝ)

/-- `Expr::eval` of `e11_1_benchmark.rs`: a non-finite power base is mapped
to NaN, and a negative base with fractional exponent is replaced by its
absolute value before exponentiation. -/
noncomputable def Expr.eval : Expr → ℝ → F64
  | .Const c, _ => .fin c
  | .X, x => .fin x
  | .Add a b, x => (a.eval x).add (b.eval x)
  | .Mul a b, x => (a.eval x).mul (b.eval x)
  | .Sin a, x => (a.eval x).sin
  | .Cos a, x => (a.eval x).cos
  | .Exp a, x => (a.eval x).exp
  | .Pow a p, x =>
      match a.eval x with
      | .fin base =>
          if base < 0 ∧ rustFract p ≠ 0 then rustPowf |base| p
          else rustPowf base p
      | _ => .nan
  | .Scale a k, x => (a.eval x).mul (.fin k)

/-- `Expr::node_count` of `e11_1_benchmark.rs`: note that the source counts
`Pow` and `Scale` nodes as single leaves, ignoring their subtree. -/
def Expr.node_count : Expr → ℕ
  | .Const _ | .X | .Pow _ _ | .Scale _ _ => 1
  | .Sin a | .Cos a | .Exp a => 1 + a.node_count
  | .Add a b | .Mul a b => 1 + a.node_count + b.node_count

/-- Height of an expression tree (instrumentation for the fuelled
evaluator; not a source function). -/
def Expr.height : Expr → ℕ
  | .Const _ | .X => 0
  | .Sin a | .Cos a | .Exp a | .Pow a _ | .Scale a _ => a.height + 1
  | .Add a b | .Mul a b => max a.height b.height + 1

/-- Fuel-instrumented copy of `Expr::eval`, used to state that evaluation
terminates: it returns `none` exactly when the fuel runs out. -/
noncomputable def Expr.evalF : ℕ → Expr → ℝ → Option F64
  | 0, _, _ => none
  | _ + 1, .Const c, _ => some (.fin c)
  | _ + 1, .X, x => some (.fin x)
  | n + 1, .Add a b, x => do
      let va ← Expr.evalF n a x
      let vb ← Expr.evalF n b x
      some (va.add vb)
  | n + 1, .Mul a b, x => do
      let va ← Expr.evalF n a x
      let vb ← Expr.evalF n b x
      some (va.mul vb)
  | n + 1, .Sin a, x => do
      let va ← Expr.evalF n a x
      some va.sin
  | n + 1, .Cos a, x => do
      let va ← Expr.evalF n a x
      some va.cos
  | n + 1, .Exp a, x => do
      let va ← Expr.evalF n a x
      some va.exp
  | n + 1, .Pow a p, x => do
      let va ← Expr.evalF n a x
      some (match va with
        | .fin base =>
            if base < 0 ∧ rustFract p ≠ 0 then rustPowf |base| p
            else rustPowf base p
        | _ => .nan)
  | n + 1, .Scale a k, x => do
      let va ← Expr.evalF n a x
      some (va.mul (.fin k))
end E11

/-- Shared evaluation-budget tracker of `e11_1_benchmark.rs`
(`struct LossCounter`), sequentially modelled: `limit` is the ceiling and
`used` the atomic counter. -/
structure LossCounter where
  limit : ℕ
  used : ℕ
namespace LossCounter

/-- `LossCounter::can`: the used count is still below the ceiling. -/
def can (c : LossCounter) : Bool := c.used < c.limit

/-- `LossCounter::tick`: claim one unit of budget. -/
def tick (c : LossCounter) : LossCounter := { c with used := c.used + 1 }
end LossCounter
namespace E11

/-- One squared-error term of `penalized_mse` and of the final clean pass:
a NaN or non-finite candidate value is replaced by the penalty constant
`1e6` before squaring. -/
noncomputable def lossTerm (e : Expr) (y : ℝ → F64) (x : ℝ) : F64 :=
  let val := e.eval x
  let d := if val.isNan || !val.isFinite then F64.fin 1e6 else val.sub (y x)
  d.mul d

/-- The summed squared error over the sample grid (the `par_iter().sum()`
of the source, folded left-to-right). -/
noncomputable def lossSum (e : Expr) (y : ℝ → F64) (xs : List ℝ) : F64 :=
  (xs.map (lossTerm e y)).foldl F64.add (F64.fin 0)

/-- `penalized_mse` of `e11_1_benchmark.rs`: consult the budget first and
return `None` (leaving the counter untouched) when it is exhausted,
otherwise tick once and compute the size-penalised mean squared error. -/
noncomputable def penalized_mse (e : Expr) (y : ℝ → F64) (xs : List ℝ)
    (c : LossCounter) : Option F64 × LossCounter :=
  if c.can then
    let c1 := c.tick
    let mse := (lossSum e y xs).div (F64.fin (xs.length : ℝ))
    (some (mse.add ((F64.fin 0.01).mul (F64.fin (e.node_count : ℝ)))), c1)
  else (none, c)

/-- A sequence of `penalized_mse` attempts sharing one counter; returns the
number of successful evaluations together with the final counter. -/
noncomputable def runAttempts (y : ℝ → F64) (xs : List ℝ) :
    List Expr → LossCounter → ℕ × LossCounter
  | [], c => (0, c)
  | e :: rest, c =>
      match penalized_mse e y xs c with
      | (some _, c1) =>
          let r := runAttempts y xs rest c1
          (r.1 + 1, r.2)
      | (none, c1) => runAttempts y xs rest c1

/-- `rand_const` of `e11_1_benchmark.rs`. -/
def rand_const (rng : Rng) : ℝ × Rng := rng.genRangeReal (-3) 3

/-- `rand_leaf` of `e11_1_benchmark.rs`. -/
def rand_leaf (rng : Rng) : Expr × Rng :=
  let (b, rng1) := rng.genBool 0.5
  if b then (Expr.X, rng1)
  else
    let (c, rng2) := rand_const rng1
    (Expr.Const c, rng2)

/-- `rand_expr` of `e11_1_benchmark.rs`. -/
def rand_expr (rng : Rng) : ℕ → Expr × Rng
  | 0 => rand_leaf rng
  | depth + 1 =>
      let (k, rng1) := rng.genRangeNat 0 8
      match k with
      | 0 =>
          let (a, rng2) := rand_expr rng1 depth
          let (b, rng3) := rand_expr rng2 depth
          (Expr.Add a b, rng3)
      | 1 =>
          let (a, rng2) := rand_expr rng1 depth
          let (b, rng3) := rand_expr rng2 depth
          (Expr.Mul a b, rng3)
      | 2 =>
          let (a, rng2) := rand_expr rng1 depth
          (Expr.Sin a, rng2)
      | 3 =>
          let (a, rng2) := rand_expr rng1 depth
          (Expr.Cos a, rng2)
      | 4 =>
          let (a, rng2) := rand_expr rng1 depth
          (Expr.Exp a, rng2)
      | 5 =>
          let (a, rng2) := rand_expr rng1 depth
          let (p, rng3) := rng2.genRangeReal 0.5 3
          (Expr.Pow a p, rng3)
      | 6 =>
          let (a, rng2) := rand_expr rng1 depth
          let (k2, rng3) := rng2.genRangeReal (-3) 3
          (Expr.Scale a k2, rng3)
      | _ => rand_leaf rng1

/-- `mutate` of `e11_1_benchmark.rs`. -/
def mutate : Expr → Rng → ℕ → Expr × Rng
  | e, rng, depth =>
      let (jump, rng0) := rng.genBool 0.12
      if jump then rand_expr rng0 (min depth 3)
      else
        match e with
        | .Const c =>
            let (d, rng1) := rng0.genRangeReal (-0.2) 0.2
            (.Const (c + d), rng1)
        | .X => (.X, rng0)
        | .Add a b =>
            let (a1, rng1) := mutate a rng0 (depth + 1)
            let (b1, rng2) := mutate b rng1 (depth + 1)
            (.Add a1 b1, rng2)
        | .Mul a b =>
            let (a1, rng1) := mutate a rng0 (depth + 1)
            let (b1, rng2) := mutate b rng1 (depth + 1)
            (.Mul a1 b1, rng2)
        | .Sin a =>
            let (a1, rng1) := mutate a rng0 (depth + 1)
            (.Sin a1, rng1)
        | .Cos a =>
            let (a1, rng1) := mutate a rng0 (depth + 1)
            (.Cos a1, rng1)
        | .Exp a =>
            let (a1, rng1) := mutate a rng0 (depth + 1)
            (.Exp a1, rng1)
        | .Pow a p =>
            let (a1, rng1) := mutate a rng0 (depth + 1)
            let (d, rng2) := rng1.genRangeReal (-0.1) 0.1
            (.Pow a1 (p + d), rng2)
        | .Scale a k =>
            let (a1, rng1) := mutate a rng0 (depth + 1)
            let (d, rng2) := rng1.genRangeReal (-0.2) 0.2
            (.Scale a1 (k + d), rng2)

/-- `crossover` of `e11_1_benchmark.rs`. -/
def crossover : Expr → Expr → Rng → ℕ → Expr × Rng
  | parent, donor, rng, depth =>
      let (swap, rng0) := rng.genBool 0.10
      if swap then (donor, rng0)
      else
        match parent with
        | .Const c => (.Const c, rng0)
        | .X => (.X, rng0)
        | .Pow a p => (.Pow a p, rng0)
        | .Scale a k => (.Scale a k, rng0)
        | .Sin a =>
            let (a1, rng1) := crossover a donor rng0 (depth + 1)
            (.Sin a1, rng1)
        | .Cos a =>
            let (a1, rng1) := crossover a donor rng0 (depth + 1)
            (.Cos a1, rng1)
        | .Exp a =>
            let (a1, rng1) := crossover a donor rng0 (depth + 1)
            (.Exp a1, rng1)
        | .Add a b =>
            let (left, rng1) := rng0.genBool 0.5
            if left then
              let (a1, rng2) := crossover a donor rng1 (depth + 1)
              (.Add a1 b, rng2)
            else
              let (b1, rng2) := crossover b donor rng1 (depth + 1)
              (.Add a b1, rng2)
        | .Mul a b =>
            let (left, rng1) := rng0.genBool 0.5
            if left then
              let (a1, rng2) := crossover a donor rng1 (depth + 1)
              (.Mul a1 b, rng2)
            else
              let (b1, rng2) := crossover b donor rng1 (depth + 1)
              (.Mul a b1, rng2)

/-- `local_opt` of `e11_1_benchmark.rs`. -/
def local_opt : Expr → Rng → ℕ → Expr × Rng
  | e, rng, 0 => (e, rng)
  | e, rng, steps + 1 =>
      let (go, rng1) := rng.genBool 0.5
      let (cur, rng2) := if go then mutate e rng1 0 else (e, rng1)
      local_opt cur rng2 steps

/-- Evaluate the whole (enumerated) population through `penalized_mse` with
the shared counter, keeping the successful scores with their indices: the
sequential model of the source's `par_iter().filter_map().collect()`. -/
noncomputable def evalPop (y : ℝ → F64) (xs : List ℝ) :
    List (ℕ × Expr) → LossCounter → List (ℕ × F64) × LossCounter
  | [], c => ([], c)
  | (i, e) :: rest, c =>
      match penalized_mse e y xs c with
      | (some f, c1) =>
          let r := evalPop y xs rest c1
          ((i, f) :: r.1, r.2)
      | (none, c1) => evalPop y xs rest c1

/-- The best-so-far update of the source's
`for (i,f) in &fits { if *f < best_fit { best_fit = *f; best = pop[*i].clone(); } }`
for one listed fitness. -/
noncomputable def bestUpd (pop : List Expr) (acc : Expr × F64) (p : ℕ × F64) :
    Expr × F64 :=
  if F64.lt p.2 acc.2 then (pop.getD p.1 Expr.X, p.2) else acc

/-- The offspring loop of `evolve_on`: while the next generation is short of
the population size and the budget is not exhausted, build one child by
local optimisation, crossover and mutation, replace it by a fresh random
tree when the sanity evaluations at `x = 0` and `x = 1` are non-finite, and
append it. The counter is only read (`can`), never ticked: the sanity
checks call `Expr::eval` directly. Fuel bounds the iteration count; each
iteration grows `next`, so fuel `popLen` is enough. -/
noncomputable def reproduceAux (pop : List Expr) (c : LossCounter)
    (popLen : ℕ) : ℕ → List Expr → Rng → List Expr × Rng
  | 0, next, rng => (next, rng)
  | fuel + 1, next, rng =>
      if next.length < popLen ∧ c.can then
        let ir := rng.genRangeNat 0 popLen
        let jr := ir.2.genRangeNat 0 popLen
        let lr := local_opt (pop.getD ir.1 Expr.X) jr.2 1
        let cr := crossover lr.1 (pop.getD jr.1 Expr.X) lr.2 0
        let mr := mutate cr.1 cr.2 0
        let sample_ok := (mr.1.eval 0).isFinite && (mr.1.eval 1).isFinite
        let fr := if sample_ok then mr else rand_expr mr.2 2
        reproduceAux pop c popLen fuel (next ++ [fr.1]) fr.2
      else (next, rng)

/-- State threaded through the `while counter.can()` loop of `evolve_on`.
The `succ` field is ghost instrumentation counting the `penalized_mse`
calls that got past the budget check; it shadows no source variable. -/
structure EvoState where
  pop : List Expr
  best : Expr
  best_fit : F64
  counter : LossCounter
  rng : Rng
  succ : ℕ

/-- One iteration of the main loop of `evolve_on`: evaluate the population,
fold the best-so-far update, and (unless the source's
`if !counter.can() { break; }` fires) reproduce the next generation with
the run-best in slot 0. -/
noncomputable def genStep (y : ℝ → F64) (xs : List ℝ) (s : EvoState) :
    EvoState :=
  let r := evalPop y xs s.pop.enum s.counter
  let bb := r.1.foldl (bestUpd s.pop) (s.best, s.best_fit)
  if r.2.can then
    let nx := reproduceAux s.pop r.2 s.pop.length s.pop.length [bb.1] s.rng
    { pop := nx.1, best := bb.1, best_fit := bb.2, counter := r.2,
      rng := nx.2, succ := s.succ + r.1.length }
  else
    { pop := s.pop, best := bb.1, best_fit := bb.2, counter := r.2,
      rng := s.rng, succ := s.succ + r.1.length }

/-- The fuelled model of `while counter.can() { ... }` in `evolve_on`. -/
noncomputable def evolveLoop (y : ℝ → F64) (xs : List ℝ) :
    ℕ → EvoState → EvoState
  | 0, s => s
  | fuel + 1, s =>
      if s.counter.can then evolveLoop y xs fuel (genStep y xs s) else s

/-- The initial population `(0..pop_size).map(|_| rand_expr(&mut rng, 3))`. -/
def initPop (rng : Rng) : ℕ → List Expr × Rng
  | 0 => ([], rng)
  | n + 1 =>
      let er := rand_expr rng 3
      let r := initPop er.2 n
      (er.1 :: r.1, r.2)

/-- The final budget-free re-scoring pass over the whole grid at the end of
`evolve_on` (same penalty substitution as `penalized_mse`, no counter). -/
noncomputable def mse_clean (best : Expr) (law : ℝ → F64) (xs : List ℝ) :
    F64 :=
  (lossSum best law xs).div (F64.fin (xs.length : ℝ))

/-- `evolve_on` of `e11_1_benchmark.rs`, minus wall-clock timing. The seed
is replaced by the oracle `Rng` (ChaCha8 is external); `none` models the
index-out-of-bounds panic of `pop[0]` on an empty population. The result
carries (best expression, clean MSE, `counter.used()`, ghost success
count). Loop fuel `eval_budget` is justified by the termination theorem:
the loop halts on its own condition within that many iterations. -/
noncomputable def evolve_on (rng0 : Rng) (law : ℝ → F64) (xs : List ℝ)
    (eval_budget pop_size : ℕ) : Option (Expr × F64 × ℕ × ℕ) :=
  let ip := initPop rng0 pop_size
  match ip.1 with
  | [] => none
  | b0 :: _ =>
      let s0 : EvoState :=
        ⟨ip.1, b0, F64.inf, ⟨eval_budget, 0⟩, ip.2, 0⟩
      let s1 := evolveLoop law xs eval_budget s0
      some (s1.best, mse_clean s1.best law xs, s1.counter.used, s1.succ)
end E11
namespace Sci

/-- Expression trees of `scientist.rs` (`pub enum Expr`). -/
inductive Expr where
  | Const (c : ℝ)
  | X
  | Add (a b : Expr)
  | Mul (a b : Expr)
  | Sin (a : Expr)
  | Cos (a : Expr)
  | Pow2 (a : Expr)

/-- `Expr::eval` of `scientist.rs`. -/
noncomputable def Expr.eval : Expr → ℝ → F64
  | .Const c, _ => .fin c
  | .X, x => .fin x
  | .Add a b, x => (a.eval x).add (b.eval x)
  | .Mul a b, x => (a.eval x).mul (b.eval x)
  | .Sin a, x => (a.eval x).sin
  | .Cos a, x => (a.eval x).cos
  | .Pow2 a, x =>
      let v := a.eval x
      v.mul v

/-- Height of a scientist expression (fuel instrumentation). -/
def Expr.height : Expr → ℕ
  | .Const _ | .X => 0
  | .Sin a | .Cos a | .Pow2 a => a.height + 1
  | .Add a b | .Mul a b => max a.height b.height + 1

/-- Fuel-instrumented copy of the scientist `Expr::eval`. -/
noncomputable def Expr.evalF : ℕ → Expr → ℝ → Option F64
  | 0, _, _ => none
  | _ + 1, .Const c, _ => some (.fin c)
  | _ + 1, .X, x => some (.fin x)
  | n + 1, .Add a b, x => do
      let va ← Expr.evalF n a x
      let vb ← Expr.evalF n b x
      some (va.add vb)
  | n + 1, .Mul a b, x => do
      let va ← Expr.evalF n a x
      let vb ← Expr.evalF n b x
      some (va.mul vb)
  | n + 1, .Sin a, x => do
      let va ← Expr.evalF n a x
      some va.sin
  | n + 1, .Cos a, x => do
      let va ← Expr.evalF n a x
      some va.cos
  | n + 1, .Pow2 a, x => do
      let va ← Expr.evalF n a x
      some (va.mul va)

/-- `rand_const` of `scientist.rs`. -/
def rand_const (rng : Rng) : ℝ × Rng := rng.genRangeReal (-3) 3

/-- `rand_leaf` of `scientist.rs`. -/
def rand_leaf (rng : Rng) : Expr × Rng :=
  let (b, rng1) := rng.genBool 0.5
  if b then (Expr.X, rng1)
  else
    let (c, rng2) := rand_const rng1
    (Expr.Const c, rng2)

/-- `rand_expr` of `scientist.rs`. -/
def rand_expr (rng : Rng) : ℕ → Expr × Rng
  | 0 => rand_leaf rng
  | depth + 1 =>
      let (k, rng1) := rng.genRangeNat 0 6
      match k with
      | 0 =>
          let (a, rng2) := rand_expr rng1 depth
          let (b, rng3) := rand_expr rng2 depth
          (Expr.Add a b, rng3)
      | 1 =>
          let (a, rng2) := rand_expr rng1 depth
          let (b, rng3) := rand_expr rng2 depth
          (Expr.Mul a b, rng3)
      | 2 =>
          let (a, rng2) := rand_expr rng1 depth
          (Expr.Sin a, rng2)
      | 3 =>
          let (a, rng2) := rand_expr rng1 depth
          (Expr.Cos a, rng2)
      | 4 =>
          let (a, rng2) := rand_expr rng1 depth
          (Expr.Pow2 a, rng2)
      | _ => rand_leaf rng1

/-- `mutate` of `scientist.rs` (with the `Const` re-randomisation guard and
the sine/cosine structural flips). -/
def mutate : Expr → Rng → ℕ → Expr × Rng
  | e, rng, depth =>
      let (jump, rng0) := rng.genBool 0.15
      if jump then rand_expr rng0 (min depth 3)
      else
        match e with
        | .Const c =>
            let (fresh, rng1) := rng0.genBool 0.6
            if fresh then
              let (v, rng2) := rand_const rng1
              (.Const v, rng2)
            else
              let (d, rng2) := rng1.genRangeReal (-0.2) 0.2
              (.Const (c + d), rng2)
        | .X =>
            let (toConst, rng1) := rng0.genBool 0.1
            if toConst then
              let (v, rng2) := rand_const rng1
              (.Const v, rng2)
            else (.X, rng1)
        | .Add a b =>
            let (a1, rng1) := mutate a rng0 (depth + 1)
            let (b1, rng2) := mutate b rng1 (depth + 1)
            (.Add a1 b1, rng2)
        | .Mul a b =>
            let (a1, rng1) := mutate a rng0 (depth + 1)
            let (b1, rng2) := mutate b rng1 (depth + 1)
            (.Mul a1 b1, rng2)
        | .Sin a =>
            let (flip, rng1) := rng0.genBool 0.1
            if flip then (.Cos a, rng1)
            else
              let (a1, rng2) := mutate a rng1 (depth + 1)
              (.Sin a1, rng2)
        | .Cos a =>
            let (flip, rng1) := rng0.genBool 0.1
            if flip then (.Sin a, rng1)
            else
              let (a1, rng2) := mutate a rng1 (depth + 1)
              (.Cos a1, rng2)
        | .Pow2 a =>
            let (a1, rng1) := mutate a rng0 (depth + 1)
            (.Pow2 a1, rng1)

/-- The hard-coded target of `evolve_symbolic`:
`(1.2*x).sin() + 0.4*x*x + 0.8*x + 0.5`. -/
noncomputable def targetS (x : ℝ) : ℝ :=
  Real.sin (1.2 * x) + 0.4 * x * x + 0.8 * x + 0.5

/-- `mse` of `scientist.rs`: the squared-error accumulation over `n`
random sample points drawn from the generator. -/
noncomputable def mseAux (e : Expr) (target : ℝ → ℝ) :
    ℕ → F64 → Rng → F64 × Rng
  | 0, s, rng => (s, rng)
  | n + 1, s, rng =>
      let (x, rng1) := rng.genRangeReal (-5) 5
      let y := target x
      let yhat := e.eval x
      let d := yhat.sub (F64.fin y)
      mseAux e target n (s.add (d.mul d)) rng1

/-- `mse` of `scientist.rs`: mean of `mseAux` over `n` points. -/
noncomputable def mse (e : Expr) (target : ℝ → ℝ) (rng : Rng) (n : ℕ) :
    F64 × Rng :=
  let r := mseAux e target n (F64.fin 0) rng
  (r.1.div (F64.fin (n : ℝ)), r.2)

/-- The `k - 1` comparison rounds of `tournament` in `scientist.rs`. -/
noncomputable def tournamentAux (pop : List Expr) (fits : List F64) :
    ℕ → ℕ → F64 → Rng → ℕ × Rng
  | 0, bi, _, rng => (bi, rng)
  | k + 1, bi, bf, rng =>
      let (i, rng1) := rng.genRangeNat 0 pop.length
      let f := fits.getD i F64.nan
      if F64.lt f bf then tournamentAux pop fits k i f rng1
      else tournamentAux pop fits k bi bf rng1

/-- `tournament` of `scientist.rs` (the returned reference is cloned by the
caller, so the model returns the expression by value). -/
noncomputable def tournament (pop : List Expr) (fits : List F64) (rng : Rng) (k : ℕ) :
    Expr × Rng :=
  let (i0, rng1) := rng.genRangeNat 0 pop.length
  let r := tournamentAux pop fits (k - 1) i0 (fits.getD i0 F64.nan) rng1
  (pop.getD r.1 Expr.X, r.2)

/-- The per-individual best-so-far update inside the fitness loop of
`evolve_symbolic`: `if f < best_fit { best_fit = f; best_expr = e.clone() }`. -/
noncomputable def bestUpd (b : Expr) (bf : F64) (e : Expr) (f : F64) :
    Expr × F64 :=
  if F64.lt f bf then (e, f) else (b, bf)

/-- The fitness loop of `evolve_symbolic`: compute `mse` for every member
(200 quick sample points each, threading the generator) while updating the
run best in place. Returns the fitness list, the updated best pair and the
advanced generator. -/
noncomputable def evalFold (target : ℝ → ℝ) :
    List Expr → Expr → F64 → Rng → List F64 × Expr × F64 × Rng
  | [], b, bf, rng => ([], b, bf, rng)
  | e :: rest, b, bf, rng =>
      let fr := mse e target rng 200
      let bb := bestUpd b bf e fr.1
      let r := evalFold target rest bb.1 bb.2 fr.2
      (fr.1 :: r.1, r.2)

/-- The reproduction loop of `evolve_symbolic`: elitist slot 0 then
tournament-selected, mutated children until `pop_size` is reached. Fueled;
each iteration grows `next`, so fuel `pop_size` is enough. -/
noncomputable def reproduceS (pop : List Expr) (fits : List F64)
    (pop_size : ℕ) : ℕ → List Expr → Rng → List Expr × Rng
  | 0, next, rng => (next, rng)
  | fuel + 1, next, rng =>
      if next.length < pop_size then
        let (p, rng1) := tournament pop fits rng 3
        let (c, rng2) := mutate p rng1 0
        reproduceS pop fits pop_size fuel (next ++ [c]) rng2
      else (next, rng)

/-- State threaded through the `for gen in 0..generations` loop of
`evolve_symbolic`. The `gens` field is ghost instrumentation counting the
completed generations. -/
structure SState where
  pop : List Expr
  best : Expr
  best_fit : F64
  rng : Rng
  gens : ℕ

/-- One generation of `evolve_symbolic`: fitness pass with best tracking,
then reproduction; every 50th generation additionally re-checks the best
on 2000 points (the result is only printed, but the draws advance the
generator). -/
noncomputable def genStepS (pop_size : ℕ) (gen : ℕ) (s : SState) : SState :=
  let r := evalFold targetS s.pop s.best s.best_fit s.rng
  let nx := reproduceS s.pop r.1 pop_size pop_size [r.2.1] r.2.2.2
  let rng2 :=
    if gen % 50 = 0 then (mse r.2.1 targetS nx.2 2000).2 else nx.2
  { pop := nx.1, best := r.2.1, best_fit := r.2.2.1, rng := rng2,
    gens := s.gens + 1 }

/-- The `for gen in 0..generations` loop of `evolve_symbolic`, counted by
the remaining generations with the running index carried along. -/
noncomputable def symRun (pop_size : ℕ) : ℕ → ℕ → SState → SState
  | _, 0, s => s
  | gen, rem + 1, s => symRun pop_size (gen + 1) rem (genStepS pop_size gen s)

/-- The initial population of `evolve_symbolic`:
`(0..pop_size).map(|_| rand_expr(&mut rng, 3))`. -/
def initPopS (rng : Rng) : ℕ → List Expr × Rng
  | 0 => ([], rng)
  | n + 1 =>
      let er := rand_expr rng 3
      let r := initPopS er.2 n
      (er.1 :: r.1, r.2)

/-- `evolve_symbolic` of `scientist.rs`, minus the file logging. The seed
is replaced by the oracle `Rng`; `none` models the `pop[0]`
index-out-of-bounds panic on an empty population. Returns the best
expression and its final 5000-point fitness. -/
noncomputable def evolve_symbolic (rng0 : Rng) (generations pop_size : ℕ) :
    Option (Expr × F64) :=
  let ip := initPopS rng0 pop_size
  match ip.1 with
  | [] => none
  | b0 :: _ =>
      let s0 : SState := ⟨ip.1, b0, F64.inf, ip.2, 0⟩
      let s1 := symRun pop_size 0 generations s0
      let fr := mse s1.best targetS s1.rng 5000
      some (s1.best, fr.1)
end Sci

/-- `curiosity_from_mse` of `scientist.rs`: `1.0 / (1.0 + mse)` (stated on
the idealised finite values). -/
noncomputable def curiosity_from_mse (mse : ℝ) : ℝ := 1 / (1 + mse)

/-- A concrete oracle generator used by the closed witness statements. -/
def rng0 : Rng := ⟨fun _ => 0, fun _ => 0, fun _ => false, 0⟩

namespace F64

theorem lt_irrefl (x : F64) : ¬ lt x x := by
  cases x <;> simp [lt]

theorem lt_trans_f64 : ∀ {x y z : F64}, lt x y → lt y z → lt x z := by
  intro x y z hxy hyz
  cases x <;> cases y <;> cases z <;> simp_all [lt]
  exact lt_trans hxy hyz

theorem le_trans_f64 {x y z : F64} (hxy : le x y) (hyz : le y z) : le x z := by
  rcases hxy with h | rfl
  · rcases hyz with h2 | rfl
    · exact Or.inl (lt_trans_f64 h h2)
    · exact Or.inl h
  · exact hyz

theorem le_refl_f64 (x : F64) : le x x := Or.inr rfl

theorem isFinite_iff {x : F64} : x.isFinite = true ↔ ∃ a, x = fin a := by
  cases x <;> simp [isFinite]
end F64

theorem rustFract_of_floor {p : ℝ} (n : ℤ) (h0 : 0 ≤ p) (hn : ⌊p⌋ = n) :
    rustFract p = p - n := by
  simp [rustFract, rustTrunc, h0, hn]
namespace E11

theorem evalF_complete (e : Expr) :
    ∀ (n : ℕ) (x : ℝ), e.height < n → Expr.evalF n e x = some (e.eval x) := by
  induction e with
  | Const c => intro n x h; match n, h with | m + 1, _ => rfl
  | X => intro n x h; match n, h with | m + 1, _ => rfl
  | Add a b iha ihb =>
      intro n x h
      match n, h with
      | m + 1, h =>
        have ha : a.height < m := by simp [Expr.height] at h; omega
        have hb : b.height < m := by simp [Expr.height] at h; omega
        simp [Expr.evalF, iha m x ha, ihb m x hb, Expr.eval]
  | Mul a b iha ihb =>
      intro n x h
      match n, h with
      | m + 1, h =>
        have ha : a.height < m := by simp [Expr.height] at h; omega
        have hb : b.height < m := by simp [Expr.height] at h; omega
        simp [Expr.evalF, iha m x ha, ihb m x hb, Expr.eval]
  | Sin a iha =>
      intro n x h
      match n, h with
      | m + 1, h =>
        have ha : a.height < m := by simp [Expr.height] at h; omega
        simp [Expr.evalF, iha m x ha, Expr.eval]
  | Cos a iha =>
      intro n x h
      match n, h with
      | m + 1, h =>
        have ha : a.height < m := by simp [Expr.height] at h; omega
        simp [Expr.evalF, iha m x ha, Expr.eval]
  | Exp a iha =>
      intro n x h
      match n, h with
      | m + 1, h =>
        have ha : a.height < m := by simp [Expr.height] at h; omega
        simp [Expr.evalF, iha m x ha, Expr.eval]
  | Pow a p iha =>
      intro n x h
      match n, h with
      | m + 1, h =>
        have ha : a.height < m := by simp [Expr.height] at h; omega
        simp [Expr.evalF, iha m x ha, Expr.eval]
  | Scale a k iha =>
      intro n x h
      match n, h with
      | m + 1, h =>
        have ha : a.height < m := by simp [Expr.height] at h; omega
        simp [Expr.evalF, iha m x ha, Expr.eval]
end E11
namespace LossCounter

theorem can_iff {c : LossCounter} : c.can = true ↔ c.used < c.limit := by
  simp [can]

theorem tick_used (c : LossCounter) : c.tick.used = c.used + 1 := rfl

theorem tick_limit (c : LossCounter) : c.tick.limit = c.limit := rfl
end LossCounter
namespace Sci

theorem evalFS_complete (e : Expr) :
    ∀ (n : ℕ) (x : ℝ), e.height < n → Expr.evalF n e x = some (e.eval x) := by
  induction e with
  | Const c => intro n x h; match n, h with | m + 1, _ => rfl
  | X => intro n x h; match n, h with | m + 1, _ => rfl
  | Add a b iha ihb =>
      intro n x h
      match n, h with
      | m + 1, h =>
        have ha : a.height < m := by simp [Expr.height] at h; omega
        have hb : b.height < m := by simp [Expr.height] at h; omega
        simp [Expr.evalF, iha m x ha, ihb m x hb, Expr.eval]
  | Mul a b iha ihb =>
      intro n x h
      match n, h with
      | m + 1, h =>
        have ha : a.height < m := by simp [Expr.height] at h; omega
        have hb : b.height < m := by simp [Expr.height] at h; omega
        simp [Expr.evalF, iha m x ha, ihb m x hb, Expr.eval]
  | Sin a iha =>
      intro n x h
      match n, h with
      | m + 1, h =>
        have ha : a.height < m := by simp [Expr.height] at h; omega
        simp [Expr.evalF, iha m x ha, Expr.eval]
  | Cos a iha =>
      intro n x h
      match n, h with
      | m + 1, h =>
        have ha : a.height < m := by simp [Expr.height] at h; omega
        simp [Expr.evalF, iha m x ha, Expr.eval]
  | Pow2 a iha =>
      intro n x h
      match n, h with
      | m + 1, h =>
        have ha : a.height < m := by simp [Expr.height] at h; omega
        simp [Expr.evalF, iha m x ha, Expr.eval]
end Sci
namespace E11

theorem penalized_mse_none {c : LossCounter} (e : Expr) (y : ℝ → F64)
    (xs : List ℝ) (h : c.limit ≤ c.used) :
    penalized_mse e y xs c = (none, c) := by
  have hcan : c.can = false := by
    simp only [LossCounter.can, decide_eq_false_iff_not]; omega
  simp [penalized_mse, hcan]

theorem penalized_mse_some {c : LossCounter} (e : Expr) (y : ℝ → F64)
    (xs : List ℝ) (h : c.used < c.limit) :
    penalized_mse e y xs c =
      (some (((lossSum e y xs).div (F64.fin (xs.length : ℝ))).add
          ((F64.fin 0.01).mul (F64.fin (e.node_count : ℝ)))), c.tick) := by
  have hcan : c.can = true := by
    simp only [LossCounter.can, decide_eq_true_eq]; omega
  simp [penalized_mse, hcan]

theorem runAttempts_exhausted (y : ℝ → F64) (xs : List ℝ) :
    ∀ (es : List Expr) (c : LossCounter), c.limit ≤ c.used →
      runAttempts y xs es c = (0, c) := by
  intro es
  induction es with
  | nil => intro c _; rfl
  | cons e rest ih =>
      intro c h
      rw [runAttempts, penalized_mse_none e y xs h]
      exact ih c h

theorem runAttempts_spec (y : ℝ → F64) (xs : List ℝ) :
    ∀ (es : List Expr) (c : LossCounter), c.used ≤ c.limit →
      (runAttempts y xs es c).1 + c.used = min c.limit (c.used + es.length) ∧
      (runAttempts y xs es c).2.used = min c.limit (c.used + es.length) := by
  intro es
  induction es with
  | nil =>
      intro c h
      constructor
      · simp [runAttempts]; omega
      · simp [runAttempts]; omega
  | cons e rest ih =>
      intro c h
      by_cases hcan : c.used < c.limit
      · rw [runAttempts, penalized_mse_some e y xs hcan]
        have ht : (c.tick).used ≤ (c.tick).limit := by
          simp [LossCounter.tick]; omega
        have hrec := ih c.tick ht
        simp only [LossCounter.tick] at hrec ⊢
        simp only [List.length_cons]
        omega
      · have hl : c.limit ≤ c.used := by omega
        rw [runAttempts_exhausted y xs (e :: rest) c hl]
        simp
        omega
end E11

/-- C1: when the budget counter has reached its ceiling, `penalized_mse`
returns `None` and leaves the counter untouched; below the ceiling it
claims exactly one unit before computing the score; hence over any
sequence of attempts starting from a fresh counter, the number of
successful evaluations and the final used count both equal
`min(ceiling, attempts)` — in particular no evaluation overruns the cap. -/
theorem budget_gate_exact :
    (∀ (e : E11.Expr) (y : ℝ → F64) (xs : List ℝ) (c : LossCounter),
        c.limit ≤ c.used → E11.penalized_mse e y xs c = (none, c)) ∧
    (∀ (e : E11.Expr) (y : ℝ → F64) (xs : List ℝ) (c : LossCounter),
        c.used < c.limit → ∃ v,
          E11.penalized_mse e y xs c =
            (some v, { limit := c.limit, used := c.used + 1 })) ∧
    (∀ (y : ℝ → F64) (xs : List ℝ) (es : List E11.Expr) (lim : ℕ),
        (E11.runAttempts y xs es ⟨lim, 0⟩).1 = min lim es.length ∧
        (E11.runAttempts y xs es ⟨lim, 0⟩).2.used = min lim es.length) := by
  refine ⟨?_, ?_, ?_⟩
  · intro e y xs c h
    exact E11.penalized_mse_none e y xs h
  · intro e y xs c h
    exact ⟨_, E11.penalized_mse_some e y xs h⟩
  · intro y xs es lim
    have h := E11.runAttempts_spec y xs es ⟨lim, 0⟩ (by simp)
    simpa using h

/-- Witness for C1 at concrete inputs: a counter at its ceiling refuses and
stays put; a fresh counter with ceiling 1 accepts and ticks to 1; two
attempts against ceiling 1 yield exactly one success and used count 1. -/
theorem budget_gate_exact_witness :
    E11.penalized_mse E11.Expr.X (fun _ => F64.fin 0) [] ⟨2, 2⟩ =
      (none, ⟨2, 2⟩) ∧
    (∃ v, E11.penalized_mse E11.Expr.X (fun _ => F64.fin 0) [] ⟨1, 0⟩ =
      (some v, { limit := 1, used := 1 })) ∧
    (E11.runAttempts (fun _ => F64.fin 0) [] [E11.Expr.X, E11.Expr.X]
      ⟨1, 0⟩).1 = min 1 2 := by
  refine ⟨?_, ?_, ?_⟩
  · exact budget_gate_exact.1 E11.Expr.X (fun _ => F64.fin 0) [] ⟨2, 2⟩
      (by decide)
  · exact budget_gate_exact.2.1 E11.Expr.X (fun _ => F64.fin 0) [] ⟨1, 0⟩
      (by decide)
  · exact (budget_gate_exact.2.2 (fun _ => F64.fin 0) []
      [E11.Expr.X, E11.Expr.X] 1).1
namespace E11

theorem bestUpd_le (pop : List Expr) (acc : Expr × F64) (p : ℕ × F64) :
    F64.le (bestUpd pop acc p).2 acc.2 := by
  unfold bestUpd
  split
  · exact Or.inl (by assumption)
  · exact Or.inr rfl

theorem foldl_bestUpd_le (pop : List Expr) :
    ∀ (l : List (ℕ × F64)) (acc : Expr × F64),
      F64.le (l.foldl (bestUpd pop) acc).2 acc.2 := by
  intro l
  induction l with
  | nil => intro acc; exact F64.le_refl_f64 _
  | cons p rest ih =>
      intro acc
      exact F64.le_trans_f64 (ih (bestUpd pop acc p)) (bestUpd_le pop acc p)

theorem genStep_best_fit (y : ℝ → F64) (xs : List ℝ) (s : EvoState) :
    (genStep y xs s).best_fit =
      ((evalPop y xs s.pop.enum s.counter).1.foldl (bestUpd s.pop)
        (s.best, s.best_fit)).2 := by
  simp only [genStep]
  split <;> rfl
end E11
namespace Sci

theorem bestUpdS_le (b : Expr) (bf : F64) (e : Expr) (f : F64) :
    F64.le (bestUpd b bf e f).2 bf := by
  unfold bestUpd
  split
  · exact Or.inl (by assumption)
  · exact Or.inr rfl

theorem evalFold_le (target : ℝ → ℝ) :
    ∀ (l : List Expr) (b : Expr) (bf : F64) (rng : Rng),
      F64.le (evalFold target l b bf rng).2.2.1 bf := by
  intro l
  induction l with
  | nil => intro b bf rng; exact F64.le_refl_f64 _
  | cons e rest ih =>
      intro b bf rng
      simp only [evalFold]
      exact F64.le_trans_f64 (ih _ _ _) (bestUpdS_le b bf e _)

theorem genStepS_best_fit (pop_size gen : ℕ) (s : SState) :
    (genStepS pop_size gen s).best_fit =
      (evalFold targetS s.pop s.best s.best_fit s.rng).2.2.1 := rfl
end Sci

/-- C2: in both generational drivers the tracked best-so-far fitness is
non-increasing from one generation to the next (it either stays exactly
equal or strictly drops in the IEEE order), and a candidate whose fitness
ties the current best fitness leaves the stored best individual (and
fitness) unchanged. -/
theorem elitism_monotonic :
    (∀ (y : ℝ → F64) (xs : List ℝ) (s : E11.EvoState),
        F64.le (E11.genStep y xs s).best_fit s.best_fit) ∧
    (∀ (pop : List E11.Expr) (b : E11.Expr) (f : F64) (i : ℕ),
        E11.bestUpd pop (b, f) (i, f) = (b, f)) ∧
    (∀ (pop_size gen : ℕ) (s : Sci.SState),
        F64.le (Sci.genStepS pop_size gen s).best_fit s.best_fit) ∧
    (∀ (b e : Sci.Expr) (f : F64), Sci.bestUpd b f e f = (b, f)) := by
  refine ⟨?_, ?_, ?_, ?_⟩
  · intro y xs s
    rw [E11.genStep_best_fit]
    exact E11.foldl_bestUpd_le s.pop _ _
  · intro pop b f i
    unfold E11.bestUpd
    simp [F64.lt_irrefl]
  · intro ps gen s
    rw [Sci.genStepS_best_fit]
    exact Sci.evalFold_le Sci.targetS s.pop s.best s.best_fit s.rng
  · intro b e f
    unfold Sci.bestUpd
    simp [F64.lt_irrefl]
namespace F64

theorem isNan_of_isFinite {x : F64} (h : x.isFinite = true) :
    x.isNan = false := by
  cases x <;> simp_all [isFinite, isNan]

theorem foldl_add_finite :
    ∀ (l : List F64) (acc : F64), acc.isFinite = true →
      (∀ t ∈ l, t.isFinite = true) → (l.foldl F64.add acc).isFinite = true := by
  intro l
  induction l with
  | nil => intro acc h _; simpa using h
  | cons t rest ih =>
      intro acc hacc hall
      rcases isFinite_iff.mp hacc with ⟨a, rfl⟩
      rcases isFinite_iff.mp (hall t (List.mem_cons_self t rest)) with ⟨b, rfl⟩
      simp only [List.foldl_cons]
      exact ih _ (by simp [add, isFinite])
        (fun u hu => hall u (List.mem_cons_of_mem _ hu))
end F64
namespace E11

theorem lossTerm_penalty (e : Expr) (y : ℝ → F64) (x : ℝ)
    (h : (e.eval x).isFinite = false) :
    lossTerm e y x = F64.fin (1e6 * 1e6) := by
  unfold lossTerm
  cases hval : e.eval x with
  | fin a => rw [hval] at h; simp [F64.isFinite] at h
  | inf => simp [F64.isNan, F64.isFinite, F64.mul]
  | ninf => simp [F64.isNan, F64.isFinite, F64.mul]
  | nan => simp [F64.isNan, F64.isFinite, F64.mul]

theorem lossTerm_finite (e : Expr) (y : ℝ → F64) (x : ℝ)
    (hy : (y x).isFinite = true) : (lossTerm e y x).isFinite = true := by
  rcases F64.isFinite_iff.mp hy with ⟨b, hb⟩
  unfold lossTerm
  cases hval : e.eval x with
  | fin a => simp [F64.isNan, F64.isFinite, hb, F64.sub, F64.mul]
  | inf => simp [F64.isNan, F64.isFinite, F64.mul]
  | ninf => simp [F64.isNan, F64.isFinite, F64.mul]
  | nan => simp [F64.isNan, F64.isFinite, F64.mul]

theorem lossSum_finite (e : Expr) (y : ℝ → F64) (xs : List ℝ)
    (hy : ∀ x ∈ xs, (y x).isFinite = true) :
    (lossSum e y xs).isFinite = true := by
  unfold lossSum
  refine F64.foldl_add_finite _ _ (by simp [F64.isFinite]) ?_
  intro t ht
  rcases List.mem_map.mp ht with ⟨x, hx, rfl⟩
  exact lossTerm_finite e y x (hy x hx)
end E11

/-- C3: if the target is finite on every grid point then every sample
point where the candidate evaluates to a non-finite value contributes the
penalty constant `1e6`, squared, in place of the raw difference, and the
aggregate squared-error sum is never NaN (it is in fact finite). -/
theorem nonfinite_penalty_no_nan (e : E11.Expr) (y : ℝ → F64) (xs : List ℝ)
    (hy : ∀ x ∈ xs, (y x).isFinite = true) :
    (E11.lossSum e y xs).isNan = false ∧
    (∀ x : ℝ, (e.eval x).isFinite = false →
      E11.lossTerm e y x = F64.fin (1e6 * 1e6)) := by
  constructor
  · exact F64.isNan_of_isFinite (E11.lossSum_finite e y xs hy)
  · intro x hx
    exact E11.lossTerm_penalty e y x hx

/-- Witness for C3 at a concrete input: constant target `0` on the grid
`[0]`, candidate `exp(x)` (finite everywhere in the idealised model), and
the non-finite candidate `(0^(-1))^(0.5)` hits the penalty equation. -/
theorem nonfinite_penalty_no_nan_witness :
    (E11.lossSum E11.Expr.X (fun _ => F64.fin 0) [0]).isNan = false ∧
    E11.lossTerm (E11.Expr.Pow (E11.Expr.Pow (E11.Expr.Const 0) (-1)) 0.5)
      (fun _ => F64.fin 0) 0 = F64.fin (1e6 * 1e6) := by
  constructor
  · exact (nonfinite_penalty_no_nan E11.Expr.X (fun _ => F64.fin 0) [0]
      (by intro x _; rfl)).1
  · refine (nonfinite_penalty_no_nan
      (E11.Expr.Pow (E11.Expr.Pow (E11.Expr.Const 0) (-1)) 0.5)
      (fun _ => F64.fin 0) [] (by intro x hx; cases hx)).2 0 ?_
    have h1 : (E11.Expr.Pow (E11.Expr.Const 0) (-1)).eval 0 = F64.inf := by
      show (match (F64.fin (0 : ℝ)) with
        | F64.fin base =>
            if base < 0 ∧ rustFract (-1) ≠ 0 then rustPowf |base| (-1)
            else rustPowf base (-1)
        | _ => F64.nan) = F64.inf
      norm_num [rustPowf]
    show ((E11.Expr.Pow (E11.Expr.Pow (E11.Expr.Const 0) (-1)) 0.5).eval
      0).isFinite = false
    rw [E11.Expr.eval, h1]
    rfl

/-- C4: whenever the base subexpression of a power node evaluates to a
finite negative value `b` and the fixed exponent `p` has non-zero
fractional part, the power node evaluates to `|b| ^ p`: the absolute value
of the base is substituted before exponentiation. -/
theorem pow_neg_base_uses_abs (a : E11.Expr) (x b p : ℝ)
    (h1 : a.eval x = F64.fin b) (h2 : b < 0) (h3 : rustFract p ≠ 0) :
    (E11.Expr.Pow a p).eval x = F64.fin (|b| ^ p) := by
  have hstep : (E11.Expr.Pow a p).eval x
      = (match a.eval x with
         | F64.fin base =>
             if base < 0 ∧ rustFract p ≠ 0 then rustPowf |base| p
             else rustPowf base p
         | _ => F64.nan) := rfl
  rw [hstep, h1]
  simp only [if_pos (And.intro h2 h3)]
  unfold rustPowf
  rw [if_pos (abs_pos.mpr (ne_of_lt h2))]

/-- Witness for C4 at the spec's boundary case: a power node with base
`-2.0` and exponent `2.5` evaluates to `2.0 ^ 2.5`, not NaN. -/
theorem pow_neg_base_uses_abs_witness :
    (E11.Expr.Pow (E11.Expr.Const (-2)) 2.5).eval 0 =
      F64.fin ((2 : ℝ) ^ (2.5 : ℝ)) := by
  have hfl : ⌊(2.5 : ℝ)⌋ = 2 := by
    rw [Int.floor_eq_iff]
    norm_num
  have hfr : rustFract (2.5 : ℝ) ≠ 0 := by
    rw [rustFract_of_floor 2 (by norm_num) hfl]
    norm_num
  have habs : |(-2 : ℝ)| = 2 := by
    rw [abs_of_neg] <;> norm_num
  have h := pow_neg_base_uses_abs (E11.Expr.Const (-2)) 0 (-2) 2.5 rfl
    (by norm_num) hfr
  rw [h, habs]

/-- C5: for every constructible expression tree of either engine variant
and every input, evaluation terminates with a well-defined `F64` value:
the fuel-instrumented evaluator, given any fuel exceeding the tree height,
never reports fuel exhaustion and returns exactly the value of the total
evaluator — there is no expression shape or input on which evaluation
faults. -/
theorem eval_total :
    (∀ (e : E11.Expr) (n : ℕ) (x : ℝ), e.height < n →
        E11.Expr.evalF n e x = some (e.eval x)) ∧
    (∀ (e : Sci.Expr) (n : ℕ) (x : ℝ), e.height < n →
        Sci.Expr.evalF n e x = some (e.eval x)) :=
  ⟨fun e n x h => E11.evalF_complete e n x h,
   fun e n x h => Sci.evalFS_complete e n x h⟩

/-- Witness for C5 at concrete inputs: `sin(x) * x` in the benchmark
variant and `(x + 1)^2` in the scientist variant, evaluated with fuel 3. -/
theorem eval_total_witness :
    E11.Expr.evalF 3 (E11.Expr.Mul (E11.Expr.Sin E11.Expr.X) E11.Expr.X) 0 =
      some ((E11.Expr.Mul (E11.Expr.Sin E11.Expr.X) E11.Expr.X).eval 0) ∧
    Sci.Expr.evalF 3 (Sci.Expr.Pow2 (Sci.Expr.Add Sci.Expr.X
      (Sci.Expr.Const 1))) 0 =
      some ((Sci.Expr.Pow2 (Sci.Expr.Add Sci.Expr.X
        (Sci.Expr.Const 1))).eval 0) :=
  ⟨eval_total.1 (E11.Expr.Mul (E11.Expr.Sin E11.Expr.X) E11.Expr.X) 3 0
      (by decide),
   eval_total.2 (Sci.Expr.Pow2 (Sci.Expr.Add Sci.Expr.X (Sci.Expr.Const 1)))
      3 0 (by decide)⟩

/-- C8 counterexample: the claim says `node_count` for a power node is one
plus the size of its child subtree; in the source `Pow` (and `Scale`) are
grouped with the leaves and count as a single node, so `Pow(X, 2.5)` has
node count 1, not 2. -/
theorem node_count_pow_counterexample :
    E11.Expr.node_count (E11.Expr.Pow E11.Expr.X 2.5) ≠
      1 + E11.Expr.node_count E11.Expr.X := by
  decide

/-- C8 amended: `node_count` returns 1 for constants, the variable, and
also for power and scale nodes (whose subtrees are not counted); unary
`sin`, `cos`, `exp` count one plus their child; binary addition and
multiplication count one plus both children. -/
theorem node_count_characterisation :
    (∀ c : ℝ, (E11.Expr.Const c).node_count = 1) ∧
    E11.Expr.X.node_count = 1 ∧
    (∀ (a : E11.Expr) (p : ℝ), (E11.Expr.Pow a p).node_count = 1) ∧
    (∀ (a : E11.Expr) (k : ℝ), (E11.Expr.Scale a k).node_count = 1) ∧
    (∀ a : E11.Expr, (E11.Expr.Sin a).node_count = 1 + a.node_count ∧
      (E11.Expr.Cos a).node_count = 1 + a.node_count ∧
      (E11.Expr.Exp a).node_count = 1 + a.node_count) ∧
    (∀ a b : E11.Expr,
      (E11.Expr.Add a b).node_count = 1 + a.node_count + b.node_count ∧
      (E11.Expr.Mul a b).node_count = 1 + a.node_count + b.node_count) :=
  ⟨fun _ => rfl, rfl, fun _ _ => rfl, fun _ _ => rfl,
   fun _ => ⟨rfl, rfl, rfl⟩, fun _ _ => ⟨rfl, rfl⟩⟩

/-- C9: `curiosity_from_mse` is exactly `1 / (1 + mse)`; it maps 0 to 1,
is strictly decreasing on the non-negative axis, and always lies in the
half-open interval `(0, 1]` there. -/
theorem curiosity_spec :
    (∀ m : ℝ, curiosity_from_mse m = 1 / (1 + m)) ∧
    curiosity_from_mse 0 = 1 ∧
    (∀ a b : ℝ, 0 ≤ a → a < b →
      curiosity_from_mse b < curiosity_from_mse a) ∧
    (∀ m : ℝ, 0 ≤ m →
      0 < curiosity_from_mse m ∧ curiosity_from_mse m ≤ 1) := by
  refine ⟨fun m => rfl, by norm_num [curiosity_from_mse], ?_, ?_⟩
  · intro a b ha hab
    unfold curiosity_from_mse
    have h1 : (0 : ℝ) < 1 + a := by linarith
    have h2 : 1 + a < 1 + b := by linarith
    exact one_div_lt_one_div_of_lt h1 h2
  · intro m hm
    unfold curiosity_from_mse
    have h1 : (0 : ℝ) < 1 + m := by linarith
    constructor
    · positivity
    · rw [div_le_one h1]
      linarith

/-- Witness for C9 at concrete inputs: values at 0, 1 and 3. -/
theorem curiosity_spec_witness :
    curiosity_from_mse 1 = 1 / (1 + 1) ∧
    curiosity_from_mse 3 < curiosity_from_mse 1 ∧
    0 < curiosity_from_mse 3 ∧ curiosity_from_mse 3 ≤ 1 :=
  ⟨curiosity_spec.1 1,
   curiosity_spec.2.2.1 1 3 (by norm_num) (by norm_num),
   curiosity_spec.2.2.2 3 (by norm_num)⟩
namespace E11

theorem evalPop_limit (y : ℝ → F64) (xs : List ℝ) :
    ∀ (l : List (ℕ × Expr)) (c : LossCounter),
      (evalPop y xs l c).2.limit = c.limit := by
  intro l
  induction l with
  | nil => intro c; rfl
  | cons p rest ih =>
      intro c
      obtain ⟨i, e⟩ := p
      by_cases hc : c.used < c.limit
      · rw [evalPop, penalized_mse_some e y xs hc]
        exact (ih c.tick).trans rfl
      · rw [evalPop, penalized_mse_none e y xs (by omega)]
        exact ih c

theorem evalPop_used (y : ℝ → F64) (xs : List ℝ) :
    ∀ (l : List (ℕ × Expr)) (c : LossCounter),
      (evalPop y xs l c).2.used = c.used + (evalPop y xs l c).1.length := by
  intro l
  induction l with
  | nil => intro c; simp [evalPop]
  | cons p rest ih =>
      intro c
      obtain ⟨i, e⟩ := p
      by_cases hc : c.used < c.limit
      · rw [evalPop, penalized_mse_some e y xs hc]
        rw [ih c.tick]
        simp only [LossCounter.tick, List.length_cons]
        omega
      · rw [evalPop, penalized_mse_none e y xs (by omega)]
        exact ih c

theorem evalPop_first_tick (y : ℝ → F64) (xs : List ℝ) (i : ℕ) (e : Expr)
    (rest : List (ℕ × Expr)) (c : LossCounter) (hc : c.used < c.limit) :
    c.used + 1 ≤ (evalPop y xs ((i, e) :: rest) c).2.used := by
  rw [evalPop, penalized_mse_some e y xs hc]
  rw [evalPop_used y xs rest c.tick]
  simp only [LossCounter.tick]
  omega

theorem genStep_counter (y : ℝ → F64) (xs : List ℝ) (s : EvoState) :
    (genStep y xs s).counter = (evalPop y xs s.pop.enum s.counter).2 := by
  simp only [genStep]
  split <;> rfl

theorem genStep_succ (y : ℝ → F64) (xs : List ℝ) (s : EvoState) :
    (genStep y xs s).succ =
      s.succ + (evalPop y xs s.pop.enum s.counter).1.length := by
  simp only [genStep]
  split <;> rfl

theorem reproduceAux_ne_nil (pop : List Expr) (c : LossCounter)
    (popLen : ℕ) :
    ∀ (fuel : ℕ) (next : List Expr) (rng : Rng), next ≠ [] →
      (reproduceAux pop c popLen fuel next rng).1 ≠ [] := by
  intro fuel
  induction fuel with
  | zero => intro next rng h; exact h
  | succ n ih =>
      intro next rng h
      rw [reproduceAux]
      split
      · exact ih _ _ (by simp)
      · exact h

theorem genStep_pop_ne (y : ℝ → F64) (xs : List ℝ) (s : EvoState)
    (h : s.pop ≠ []) : (genStep y xs s).pop ≠ [] := by
  simp only [genStep]
  split
  · exact reproduceAux_ne_nil s.pop _ s.pop.length s.pop.length _ s.rng
      (by simp)
  · exact h

theorem genStep_used_tick (y : ℝ → F64) (xs : List ℝ) (s : EvoState)
    (h : s.pop ≠ []) (hc : s.counter.used < s.counter.limit) :
    s.counter.used + 1 ≤ (genStep y xs s).counter.used := by
  rw [genStep_counter]
  obtain ⟨p, rest, hcons⟩ := List.exists_cons_of_ne_nil h
  rw [hcons, List.enum_cons]
  exact evalPop_first_tick y xs 0 p _ s.counter hc

theorem genStep_limit (y : ℝ → F64) (xs : List ℝ) (s : EvoState) :
    (genStep y xs s).counter.limit = s.counter.limit := by
  rw [genStep_counter]
  exact evalPop_limit y xs s.pop.enum s.counter

theorem evolveLoop_not_can (y : ℝ → F64) (xs : List ℝ) (fuel : ℕ)
    (s : EvoState) (h : s.counter.can = false) :
    evolveLoop y xs fuel s = s := by
  cases fuel with
  | zero => rfl
  | succ n => rw [evolveLoop, h]; simp

theorem evolveLoop_exhausts (y : ℝ → F64) (xs : List ℝ) :
    ∀ (fuel : ℕ) (s : EvoState), s.pop ≠ [] →
      s.counter.limit ≤ s.counter.used + fuel →
      (evolveLoop y xs fuel s).counter.can = false := by
  intro fuel
  induction fuel with
  | zero =>
      intro s _ h
      simp only [evolveLoop, LossCounter.can, decide_eq_false_iff_not]
      omega
  | succ n ih =>
      intro s hpop h
      rw [evolveLoop]
      by_cases hc : s.counter.can = true
      · rw [hc]
        simp only [if_true]
        have hlt : s.counter.used < s.counter.limit :=
          LossCounter.can_iff.mp hc
        refine ih (genStep y xs s) (genStep_pop_ne y xs s hpop) ?_
        have h1 := genStep_used_tick y xs s hpop hlt
        have h2 := genStep_limit y xs s
        omega
      · simp only [Bool.not_eq_true] at hc
        rw [hc]
        simpa using hc

theorem evolveLoop_used_succ (y : ℝ → F64) (xs : List ℝ) :
    ∀ (fuel : ℕ) (s : EvoState), s.counter.used = s.succ →
      (evolveLoop y xs fuel s).counter.used =
        (evolveLoop y xs fuel s).succ := by
  intro fuel
  induction fuel with
  | zero => intro s h; exact h
  | succ n ih =>
      intro s h
      rw [evolveLoop]
      by_cases hc : s.counter.can = true
      · rw [hc]
        simp only [if_true]
        refine ih (genStep y xs s) ?_
        rw [genStep_counter, genStep_succ, evalPop_used]
        omega
      · simp only [Bool.not_eq_true] at hc
        rw [hc]
        simpa using h

theorem initPop_length : ∀ (n : ℕ) (rng : Rng),
    (initPop rng n).1.length = n := by
  intro n
  induction n with
  | zero => intro rng; rfl
  | succ m ih =>
      intro rng
      simp only [initPop, List.length_cons, ih]
end E11
namespace Sci

theorem symRun_gens (pop_size : ℕ) :
    ∀ (rem gen : ℕ) (s : SState),
      (symRun pop_size gen rem s).gens = s.gens + rem := by
  intro rem
  induction rem with
  | zero => intro gen s; rfl
  | succ n ih =>
      intro gen s
      rw [symRun, ih]
      simp only [genStepS]
      omega
end Sci

/-- C6: with a non-empty population the benchmark driver's
`while counter.can()` loop halts with the evaluation budget exhausted
within `limit - used` iterations (each generation claims at least one unit
of budget), and the scientist driver performs exactly the caller-specified
number of generations — each driver stops at the one bound it has, so the
loop always terminates at whichever bound applies first. -/
theorem driver_terminates :
    (∀ (y : ℝ → F64) (xs : List ℝ) (fuel : ℕ) (s : E11.EvoState),
        s.pop ≠ [] → s.counter.limit ≤ s.counter.used + fuel →
        (E11.evolveLoop y xs fuel s).counter.can = false) ∧
    (∀ (pop_size rem gen : ℕ) (s : Sci.SState),
        (Sci.symRun pop_size gen rem s).gens = s.gens + rem) :=
  ⟨fun y xs fuel s hpop h => E11.evolveLoop_exhausts y xs fuel s hpop h,
   fun pop_size rem gen s => Sci.symRun_gens pop_size rem gen s⟩

/-- Witness for C6 at concrete inputs: a singleton population with budget
2 exhausts within fuel 2, and two scientist generations count as 2. -/
theorem driver_terminates_witness :
    (E11.evolveLoop (fun _ => F64.fin 0) [] 2
      ⟨[E11.Expr.X], E11.Expr.X, F64.inf, ⟨2, 0⟩, rng0, 0⟩).counter.can
        = false ∧
    (Sci.symRun 1 0 2 ⟨[Sci.Expr.X], Sci.Expr.X, F64.inf, rng0, 0⟩).gens
        = 0 + 2 :=
  ⟨driver_terminates.1 (fun _ => F64.fin 0) [] 2
      ⟨[E11.Expr.X], E11.Expr.X, F64.inf, ⟨2, 0⟩, rng0, 0⟩
      (by simp) (by decide),
   driver_terminates.2 1 2 0 ⟨[Sci.Expr.X], Sci.Expr.X, F64.inf, rng0, 0⟩⟩

/-- C10: only `penalized_mse` touches the budget counter. After any
generation the counter equals the counter left by the evaluation phase
alone — the reproduction phase with its child sanity evaluations at
`x = 0` and `x = 1` claims nothing — and across the whole loop the used
count tracks the ghost count of `penalized_mse` calls that got past the
budget check; `evolve_on` (whose final clean re-scoring pass takes no
counter) therefore reports a used count exactly equal to that success
count. -/
theorem budget_frame :
    (∀ (y : ℝ → F64) (xs : List ℝ) (s : E11.EvoState),
        (E11.genStep y xs s).counter =
          (E11.evalPop y xs s.pop.enum s.counter).2) ∧
    (∀ (y : ℝ → F64) (xs : List ℝ) (fuel : ℕ) (s : E11.EvoState),
        s.counter.used = s.succ →
        (E11.evolveLoop y xs fuel s).counter.used =
          (E11.evolveLoop y xs fuel s).succ) ∧
    (∀ (rng : Rng) (law : ℝ → F64) (xs : List ℝ) (eval_budget pop_size : ℕ),
        pop_size ≠ 0 →
        ∃ r, E11.evolve_on rng law xs eval_budget pop_size = some r ∧
          r.2.2.1 = r.2.2.2) := by
  refine ⟨fun y xs s => E11.genStep_counter y xs s,
    fun y xs fuel s h => E11.evolveLoop_used_succ y xs fuel s h, ?_⟩
  intro rng law xs eval_budget pop_size hps
  have hlen := E11.initPop_length pop_size rng
  have hne : (E11.initPop rng pop_size).1 ≠ [] := by
    intro hnil
    rw [hnil] at hlen
    simp at hlen
    omega
  obtain ⟨b0, rest, hcons⟩ := List.exists_cons_of_ne_nil hne
  refine ⟨((E11.evolveLoop law xs eval_budget
      ⟨b0 :: rest, b0, F64.inf, ⟨eval_budget, 0⟩,
        (E11.initPop rng pop_size).2, 0⟩).best,
    E11.mse_clean (E11.evolveLoop law xs eval_budget
      ⟨b0 :: rest, b0, F64.inf, ⟨eval_budget, 0⟩,
        (E11.initPop rng pop_size).2, 0⟩).best law xs,
    (E11.evolveLoop law xs eval_budget
      ⟨b0 :: rest, b0, F64.inf, ⟨eval_budget, 0⟩,
        (E11.initPop rng pop_size).2, 0⟩).counter.used,
    (E11.evolveLoop law xs eval_budget
      ⟨b0 :: rest, b0, F64.inf, ⟨eval_budget, 0⟩,
        (E11.initPop rng pop_size).2, 0⟩).succ), ?_, ?_⟩
  · simp only [E11.evolve_on]
    rw [hcons]
  · exact E11.evolveLoop_used_succ law xs eval_budget _ rfl

/-- Witness for C10 at concrete inputs: a singleton population against
budget 1 keeps used equal to the ghost success count, and the completed
`evolve_on` run reports used = successes. -/
theorem budget_frame_witness :
    (E11.evolveLoop (fun _ => F64.fin 0) [] 1
      ⟨[E11.Expr.X], E11.Expr.X, F64.inf, ⟨1, 0⟩, rng0, 0⟩).counter.used =
    (E11.evolveLoop (fun _ => F64.fin 0) [] 1
      ⟨[E11.Expr.X], E11.Expr.X, F64.inf, ⟨1, 0⟩, rng0, 0⟩).succ ∧
    (∃ r, E11.evolve_on rng0 (fun _ => F64.fin 0) [] 1 1 = some r ∧
      r.2.2.1 = r.2.2.2) :=
  ⟨budget_frame.2.1 (fun _ => F64.fin 0) [] 1
      ⟨[E11.Expr.X], E11.Expr.X, F64.inf, ⟨1, 0⟩, rng0, 0⟩ rfl,
   budget_frame.2.2 rng0 (fun _ => F64.fin 0) [] 1 1 (by decide)⟩

/-- C7 counterexample: with population size 0 (an invalid configuration)
`evolve_on` does not surface an explicit failure value — it hits the
`pop[0]` index-out-of-bounds panic (modelled as `none`) instead of the
eager synchronous rejection the claim requires. -/
theorem config_validation_counterexample :
    E11.evolve_on rng0 (fun _ => F64.fin 0) [] 1 0 = none := rfl

/-- C7 amended: the engine performs no eager configuration validation.
With population size zero the driver faults at `pop[0]` (an
index-out-of-bounds panic, modelled as `none`) for every budget; with a
zero evaluation budget and a positive population size it silently runs no
evaluations at all and returns the unevaluated first individual with a
reported used count of 0 — no explicit failure is surfaced in either
case. -/
theorem no_eager_validation :
    (∀ (rng : Rng) (law : ℝ → F64) (xs : List ℝ) (eval_budget : ℕ),
        E11.evolve_on rng law xs eval_budget 0 = none) ∧
    (∀ (rng : Rng) (law : ℝ → F64) (xs : List ℝ) (pop_size : ℕ),
        pop_size ≠ 0 → ∃ b cfit sc,
          E11.evolve_on rng law xs 0 pop_size = some (b, cfit, 0, sc)) := by
  constructor
  · intro rng law xs eval_budget
    rfl
  · intro rng law xs pop_size hps
    have hlen := E11.initPop_length pop_size rng
    have hne : (E11.initPop rng pop_size).1 ≠ [] := by
      intro hnil
      rw [hnil] at hlen
      simp at hlen
      omega
    obtain ⟨b0, rest, hcons⟩ := List.exists_cons_of_ne_nil hne
    refine ⟨b0, E11.mse_clean b0 law xs, 0, ?_⟩
    simp only [E11.evolve_on]
    rw [hcons]
    rfl

/-- Witness for the amended C7 at concrete inputs: population size 0 gives
the modelled panic, and budget 0 with population size 1 returns a result
with used count 0. -/
theorem no_eager_validation_witness :
    E11.evolve_on rng0 (fun _ => F64.fin 0) [] 5 0 = none ∧
    (∃ b cfit sc, E11.evolve_on rng0 (fun _ => F64.fin 0) [] 0 1 =
      some (b, cfit, 0, sc)) :=
  ⟨no_eager_validation.1 rng0 (fun _ => F64.fin 0) [] 5,
   no_eager_validation.2 rng0 (fun _ => F64.fin 0) [] 1 (by decide)⟩
